import Mathlib

/-!
# Verification of `delorean_tsm/src/reader.rs`

A shallow embedding of the TSM file reader: the index reader
(`TSMIndexReader`), the series-key parser (`parse_tsm_key`), the block
decoder (`TSMBlockReader::decode_block`) and the `InfluxID` identifier,
together with proofs about them.

Modelling conventions:
* a byte source (`BufRead + Seek` in the source) is a list of bytes
  (naturals, meaningful values `< 256`) together with a cursor position;
* machine integers are `Nat`/`Int`; `u64` file offsets are kept as plain
  `Nat` (every reachable offset is bounded by the source length plus the
  small per-read increments, so wrap-around is unreachable), except in
  `try_new` where the `len - 8` subtraction genuinely can wrap and is
  modelled with an explicit `% 2^64`;
* `i64::from_be_bytes` is the two's-complement reinterpretation `toI64`;
* Rust panics (out-of-range `Vec::drain`, `usize` underflow followed by
  `split_at` out of bounds, slice indexing) are modelled by an explicit
  `panic` outcome, distinct from returned errors;
* `f64` values are carried opaquely as 64-bit patterns (`Nat`): no claim
  inspects floating-point contents, only lengths.
-/

/-- Modelled from the spec: the error type `TSMError` lives in the crate
root (`lib.rs`), which is not part of the sources; the spec (§7) says a
single error type carries a textual description and, conceptually, one of
three kinds: `IoError` (read/seek failure), `DecodeError` (malformed
bytes) and `UnsupportedBlockType`. -/
inductive TSMError where
  | ioError (description : String)
  | decodeError (description : String)
  | unsupportedBlockType (description : String)
deriving DecidableEq, Repr

/-- The description text carried by a read failure
(`std::io::ErrorKind::UnexpectedEof` from `read_exact`). -/
def ioMsg : String := "failed to fill whole buffer"

/-- A seekable byte source (`BufRead + Seek` over in-memory bytes):
the underlying bytes plus the current cursor position. -/
structure ByteSource where
  data : List Nat
  pos : Nat
deriving DecidableEq, Repr

/-- `Read::read_exact` on a byte source: succeeds with exactly `n` bytes
when they are available from the cursor, otherwise fails (UnexpectedEof). -/
def readExact (s : ByteSource) (n : Nat) : Option (List Nat × ByteSource) :=
  if s.pos + n ≤ s.data.length then
    some ((s.data.drop s.pos).take n, { s with pos := s.pos + n })
  else
    none

/-- `Seek::seek(SeekFrom::Start(p))`: absolute positioning (seeking past
the end of in-memory data succeeds; the failure surfaces on read). -/
def seekTo (s : ByteSource) (p : Nat) : ByteSource :=
  { s with pos := p }

/-- `Seek::seek(SeekFrom::End(-8))`: fails when the resulting position
would be negative. -/
def seekFromEnd8 (s : ByteSource) : Option ByteSource :=
  if s.data.length < 8 then none else some { s with pos := s.data.length - 8 }

/-- Big-endian interpretation of a byte list
(`u16::from_be_bytes` / `u64::from_be_bytes` and friends). -/
def fromBEBytes (bs : List Nat) : Nat :=
  bs.foldl (fun acc b => acc * 256 + b) 0

/-- Two's-complement reinterpretation of a `u64` value as `i64`
(`i64::from_be_bytes`). -/
def toI64 (u : Nat) : Int :=
  if u < 2 ^ 63 then (u : Int) else (u : Int) - 2 ^ 64

/-- `Block`: location and time range of a block of data (reader.rs). -/
structure Block where
  min_time : Int
  max_time : Int
  offset : Nat
  size : Nat
deriving DecidableEq, Repr

/-- The field ranges of the `Block` struct (`i64`, `i64`, `u64`, `u32`). -/
def Block.wf (b : Block) : Prop :=
  -2 ^ 63 ≤ b.min_time ∧ b.min_time < 2 ^ 63 ∧
  -2 ^ 63 ≤ b.max_time ∧ b.max_time < 2 ^ 63 ∧
  b.offset < 2 ^ 64 ∧ b.size < 2 ^ 32

instance (b : Block) : Decidable b.wf := by
  unfold Block.wf; infer_instance

/-- `IndexEntry` (reader.rs): one series key plus one of its block
descriptors, with the 1-based block cursor. -/
structure IndexEntry where
  key : List Nat
  block_type : Nat
  count : Nat
  block : Block
  curr_block : Nat
deriving DecidableEq, Repr

/-- `TSMIndexReader` (reader.rs): the byte source, the current and end
offsets within the index section, and the current/next entry slots. -/
structure TSMIndexReader where
  r : ByteSource
  curr_offset : Nat
  end_offset : Nat
  curr : Option IndexEntry
  next : Option IndexEntry
deriving DecidableEq, Repr

/-- `TSMIndexReader::try_new`: seek to the final 8 bytes, read the index
offset (big-endian `u64`), seek there.  `end_offset` is the `u64`
computation `len as u64 - 8`, which wraps for `len < 8`. -/
def try_new (r : ByteSource) (len : Nat) : Except TSMError TSMIndexReader :=
  match seekFromEnd8 r with
  | none => .error (.ioError "invalid seek to a negative or overflowing position")
  | some r1 =>
    match readExact r1 8 with
    | none => .error (.ioError ioMsg)
    | some (buf, r2) =>
      let index_offset := fromBEBytes buf
      let r3 := seekTo r2 index_offset
      .ok { r := r3
            curr_offset := index_offset
            end_offset := (len + (2 ^ 64 - 8)) % 2 ^ 64
            curr := none
            next := none }

/-- `TSMIndexReader::next_block_entry`: read one 28-byte block record
(`i64` min time, `i64` max time, `u64` offset, `u32` size), advancing
the source and `curr_offset` after each successful read. -/
def next_block_entry (s : TSMIndexReader) :
    Except TSMError Block × TSMIndexReader :=
  match readExact s.r 8 with
  | none => (.error (.ioError ioMsg), s)
  | some (b1, r1) =>
    let s1 := { s with r := r1, curr_offset := s.curr_offset + 8 }
    let min_time := toI64 (fromBEBytes b1)
    match readExact s1.r 8 with
    | none => (.error (.ioError ioMsg), s1)
    | some (b2, r2) =>
      let s2 := { s1 with r := r2, curr_offset := s1.curr_offset + 8 }
      let max_time := toI64 (fromBEBytes b2)
      match readExact s2.r 8 with
      | none => (.error (.ioError ioMsg), s2)
      | some (b3, r3) =>
        let s3 := { s2 with r := r3, curr_offset := s2.curr_offset + 8 }
        let offset := fromBEBytes b3
        match readExact s3.r 4 with
        | none => (.error (.ioError ioMsg), s3)
        | some (b4, r4) =>
          let s4 := { s3 with r := r4, curr_offset := s3.curr_offset + 4 }
          let size := fromBEBytes b4
          (.ok { min_time := min_time, max_time := max_time
                 offset := offset, size := size }, s4)

/-- `TSMIndexReader::next_index_entry`: read a series header
(`u16` key length, the key bytes, `u8` block type, `u16` count) followed
by the first block record; the produced entry starts at cursor 1. -/
def next_index_entry (s : TSMIndexReader) :
    Except TSMError IndexEntry × TSMIndexReader :=
  match readExact s.r 2 with
  | none => (.error (.ioError ioMsg), s)
  | some (buf1, r1) =>
    let s1 := { s with r := r1, curr_offset := s.curr_offset + 2 }
    let key_len := fromBEBytes buf1
    match readExact s1.r key_len with
    | none => (.error (.ioError ioMsg), s1)
    | some (key_bytes, r2) =>
      let s2 := { s1 with r := r2, curr_offset := s1.curr_offset + key_len }
      match readExact s2.r 1 with
      | none => (.error (.ioError ioMsg), s2)
      | some (buf2, r3) =>
        let s3 := { s2 with r := r3, curr_offset := s2.curr_offset + 1 }
        let block_type := fromBEBytes buf2
        match readExact s3.r 2 with
        | none => (.error (.ioError ioMsg), s3)
        | some (buf3, r4) =>
          let s4 := { s3 with r := r4, curr_offset := s3.curr_offset + 2 }
          let count := fromBEBytes buf3
          match next_block_entry s4 with
          | (.error e, s5) => (.error e, s5)
          | (.ok block, s5) =>
            (.ok { key := key_bytes, block_type := block_type
                   count := count, block := block, curr_block := 1 }, s5)

/-- `<TSMIndexReader as Iterator>::next`: stop at `end_offset`; while the
current entry has more blocks (`curr_block < count`) read only the next
block record and bump the cursor (a `u16` increment), otherwise read the
next series header.  The new entry is stored in both the `next` and
`curr` slots and returned. -/
def iterNext (s : TSMIndexReader) :
    Option (Except TSMError IndexEntry) × TSMIndexReader :=
  if s.curr_offset = s.end_offset then (none, s)
  else
    match s.curr with
    | some curr =>
      if curr.curr_block < curr.count then
        match next_block_entry s with
        | (.error e, s1) => (some (.error e), s1)
        | (.ok block, s1) =>
          let nextE := { curr with block := block,
                                   curr_block := (curr.curr_block + 1) % 65536 }
          (some (.ok nextE), { s1 with next := some nextE, curr := some nextE })
      else
        match next_index_entry s with
        | (.error e, s1) => (some (.error e), s1)
        | (.ok entry, s1) =>
          (some (.ok entry), { s1 with next := some entry, curr := some entry })
    | none =>
      match next_index_entry s with
      | (.error e, s1) => (some (.error e), s1)
      | (.ok entry, s1) =>
        (some (.ok entry), { s1 with next := some entry, curr := some entry })

/-- Iterate `iterNext` at most `n` times, collecting the produced items
(the iterator's yielded `Result` values) until it returns `None`. -/
def runNext : TSMIndexReader → Nat → List (Except TSMError IndexEntry)
  | _, 0 => []
  | s, n + 1 =>
    match iterNext s with
    | (none, _) => []
    | (some res, s') => res :: runNext s' n

/-- `ParsedTSMKey` (reader.rs): measurement, tag set and field key.
Text is carried as lists of code points: the source pushes each byte as a
`char` (Latin-1 cast), so the code points are exactly the raw bytes. -/
structure ParsedTSMKey where
  measurement : List Nat
  tagset : List (List Nat × List Nat)
  field_key : List Nat
deriving DecidableEq, Repr

/-- Outcome of `parse_tsm_key`: a parsed key, a returned error, or a Rust
panic (out-of-range `Vec::drain`, or the `usize` underflow in
`value.len() - 4` / the out-of-bounds `split_at` it causes). -/
inductive ParseOutcome where
  | ok (k : ParsedTSMKey)
  | err (e : TSMError)
  | panic
deriving DecidableEq, Repr

/-- Is `b` a UTF-8 continuation byte (`0x80..=0xBF`)? -/
def isCont (b : Nat) : Bool := 128 ≤ b && b ≤ 191

/-- UTF-8 validity of a byte list: the check performed by
`String::from_utf8` (2-byte `C2..DF`, 3-byte `E0..EF` with the `E0`/`ED`
second-byte restrictions, 4-byte `F0..F4` with the `F0`/`F4`
second-byte restrictions). -/
def validUtf8 : List Nat → Bool
  | [] => true
  | b :: rest =>
    if b ≤ 127 then validUtf8 rest
    else if 194 ≤ b && b ≤ 223 then
      match rest with
      | c1 :: rest2 => isCont c1 && validUtf8 rest2
      | [] => false
    else if 224 ≤ b && b ≤ 239 then
      match rest with
      | c1 :: c2 :: rest3 =>
        (if b = 224 then decide (160 ≤ c1 && c1 ≤ 191)
         else if b = 237 then decide (128 ≤ c1 && c1 ≤ 159)
         else isCont c1) && isCont c2 && validUtf8 rest3
      | _ => false
    else if 240 ≤ b && b ≤ 244 then
      match rest with
      | c1 :: c2 :: c3 :: rest4 =>
        (if b = 240 then decide (144 ≤ c1 && c1 ≤ 191)
         else if b = 244 then decide (128 ≤ c1 && c1 ≤ 143)
         else isCont c1) && isCont c2 && isCont c3 && validUtf8 rest4
      | _ => false
    else false

/-- One step of the tag-accumulation loop in `parse_tsm_key`: state is
(emitted pairs, current name, current value, `reading_key`); byte 44
(`,`) emits the current pair and resets, byte 61 (`=`) switches from
name to value, anything else is appended to the side being read. -/
def tagStep (st : List (List Nat × List Nat) × List Nat × List Nat × Bool)
    (byte : Nat) : List (List Nat × List Nat) × List Nat × List Nat × Bool :=
  let (tagset, key, value, reading_key) := st
  if byte = 44 then (tagset ++ [(key, value)], [], [], true)
  else if byte = 61 then (tagset, key, value, false)
  else if reading_key then (tagset, key ++ [byte], value, reading_key)
  else (tagset, key, value ++ [byte], reading_key)

/-- `parse_tsm_key` (reader.rs): skip the 19-byte prefix (a panicking
`drain` when the key is shorter), scan to the first `,` for the
measurement (UTF-8 checked), run the tag loop over the remainder with
its first byte skipped (a panicking `drain(1..)` when empty), and trim
the final value to the first `(len - 4) / 2` bytes for the field key
(`usize` underflow / `split_at` panic when the value is shorter than 4). -/
def parse_tsm_key (key0 : List Nat) : ParseOutcome :=
  if key0.length < 19 then .panic
  else
    let key := key0.drop 19
    let i := key.findIdx (fun b => b == 44)
    let meas := key.take i
    let rem_key := key.drop i
    if validUtf8 meas then
      if rem_key.length < 1 then .panic
      else
        let st := (rem_key.drop 1).foldl tagStep ([], [], [], true)
        let value := st.2.2.1
        if value.length < 4 then .panic
        else
          let field_trim_length := (value.length - 4) / 2
          .ok { measurement := meas, tagset := st.1
                field_key := value.take field_trim_length }
    else .err (.decodeError "invalid utf-8 sequence")

/-- The block type markers (reader.rs). -/
def F64_BLOCKTYPE_MARKER : Nat := 0

/-- `I64_BLOCKTYPE_MARKER` (reader.rs). -/
def I64_BLOCKTYPE_MARKER : Nat := 1

/-- `BOOL_BLOCKTYPE_MARKER` (reader.rs). -/
def BOOL_BLOCKTYPE_MARKER : Nat := 2

/-- `STRING_BLOCKTYPE_MARKER` (reader.rs). -/
def STRING_BLOCKTYPE_MARKER : Nat := 3

/-- `U64_BLOCKTYPE_MARKER` (reader.rs). -/
def U64_BLOCKTYPE_MARKER : Nat := 4

/-- `MAX_BLOCK_VALUES` (reader.rs): the maximum number of values a TSM
block can store; used only as a capacity hint by the decoder. -/
def MAX_BLOCK_VALUES : Nat := 1000

/-- Modelled from the spec: `u64::decode_var` from the external
`integer_encoding` crate, the unsigned little-endian base-128 (varint)
decoding of §6, returning the decoded value together with the number of
bytes consumed. -/
def decode_var : List Nat → Nat × Nat
  | [] => (0, 0)
  | b :: rest =>
    if b < 128 then (b, 1)
    else
      let (v, n) := decode_var rest
      (b % 128 + 128 * v, n + 1)

/-- `BlockData` (reader.rs): typed column pairs.  `f64` values are
carried as opaque 64-bit patterns, string values as byte lists. -/
inductive BlockData where
  | Float (ts : List Int) (values : List Nat)
  | Integer (ts : List Int) (values : List Int)
  | Bool (ts : List Int) (values : List Bool)
  | Str (ts : List Int) (values : List (List Nat))
  | Unsigned (ts : List Int) (values : List Nat)
deriving DecidableEq, Repr

/-- Length of the timestamp column of a `BlockData`. -/
def BlockData.tsLength : BlockData → Nat
  | .Float ts _ => ts.length
  | .Integer ts _ => ts.length
  | .Bool ts _ => ts.length
  | .Str ts _ => ts.length
  | .Unsigned ts _ => ts.length

/-- Length of the value column of a `BlockData`. -/
def BlockData.valuesLength : BlockData → Nat
  | .Float _ vs => vs.length
  | .Integer _ vs => vs.length
  | .Bool _ vs => vs.length
  | .Str _ vs => vs.length
  | .Unsigned _ vs => vs.length

/-- Outcome of `decode_block`: decoded data, a returned error, or a Rust
panic (indexing `data[4]` on a too-small block, or the out-of-bounds
timestamp slice `data[idx..idx + len]`). -/
inductive DecodeOutcome where
  | ok (bd : BlockData)
  | err (e : TSMError)
  | panic
deriving DecidableEq, Repr

/-- `TSMBlockReader` (reader.rs): owns its byte source. -/
structure TSMBlockReader where
  r : ByteSource
deriving DecidableEq, Repr

/-- `TSMBlockReader::decode_block` (reader.rs): seek to the block's
offset, read exactly `size` bytes, skip the 4-byte CRC, read the type
marker byte, read the varint length of the timestamp sub-block, decode
the timestamps, then dispatch on the marker: `0` decodes floats, `1`
decodes integers, `2`/`3`/`4` and any other marker fail with the
unsupported-block-type error.  The external column decoders (crate
module `encoders`, not part of the sources; black-box collaborators per
spec §6) are passed in as functions `tsDec`, `fDec`, `iDec`; a decoder
error is wrapped into the error type via its description. -/
def decode_block (tsDec : List Nat → Except String (List Int))
    (fDec : List Nat → Except String (List Nat))
    (iDec : List Nat → Except String (List Int))
    (br : TSMBlockReader) (block : Block) : DecodeOutcome :=
  match readExact (seekTo br.r block.offset) block.size with
  | none => .err (.ioError ioMsg)
  | some (data, _) =>
    if data.length < 5 then .panic
    else
      let block_type := data.getD 4 0
      let (len, n) := decode_var (data.drop 5)
      let idx := 5 + n
      if data.length < idx + len then .panic
      else
        match tsDec ((data.drop idx).take len) with
        | .error e => .err (.decodeError e)
        | .ok ts =>
          let rest := data.drop (idx + len)
          if block_type = F64_BLOCKTYPE_MARKER then
            match fDec rest with
            | .error e => .err (.decodeError e)
            | .ok values => .ok (.Float ts values)
          else if block_type = I64_BLOCKTYPE_MARKER then
            match iDec rest with
            | .error e => .err (.decodeError e)
            | .ok values => .ok (.Integer ts values)
          else if block_type = BOOL_BLOCKTYPE_MARKER then
            .err (.unsupportedBlockType "bool block type unsupported")
          else if block_type = STRING_BLOCKTYPE_MARKER then
            .err (.unsupportedBlockType "string block type unsupported")
          else if block_type = U64_BLOCKTYPE_MARKER then
            .err (.unsupportedBlockType "unsigned integer block type unsupported")
          else
            .err (.unsupportedBlockType
              ("unsupported block type " ++ toString block_type))

/-- `InfluxID` (reader.rs): a 64-bit organization or bucket identifier. -/
structure InfluxID where
  id : Nat
deriving DecidableEq, Repr

/-- The value of a hexadecimal digit character, as accepted by
`u64::from_str_radix(s, 16)` (`0-9`, `a-f`, `A-F`). -/
def hexVal (c : Char) : Option Nat :=
  if '0' ≤ c ∧ c ≤ '9' then some (c.toNat - '0'.toNat)
  else if 'a' ≤ c ∧ c ≤ 'f' then some (c.toNat - 'a'.toNat + 10)
  else if 'A' ≤ c ∧ c ≤ 'F' then some (c.toNat - 'A'.toNat + 10)
  else none

/-- Digit-accumulation loop of `u64::from_str_radix(s, 16)`: fails on a
non-digit or when the accumulated value leaves the `u64` range. -/
def fromStrRadix16Loop : List Char → Nat → Option Nat
  | [], acc => some acc
  | c :: cs, acc =>
    match hexVal c with
    | none => none
    | some d =>
      if acc * 16 + d < 2 ^ 64 then fromStrRadix16Loop cs (acc * 16 + d)
      else none

/-- `u64::from_str_radix(s, 16)`: an optional leading `+`, then at least
one hexadecimal digit, accumulated base-16 with an overflow check (a
leading `-` simply fails the digit check, as it does for `u64`). -/
def from_str_radix16 (s : List Char) : Option Nat :=
  let s' := if s.head? = some '+' then s.tail else s
  if s'.isEmpty then none else fromStrRadix16Loop s' 0

/-- `InfluxID::new_str` (reader.rs): parse a hexadecimal string, mapping
a parse failure to the error type. -/
def InfluxID.new_str (s : List Char) : Except TSMError InfluxID :=
  match from_str_radix16 s with
  | none => .error (.decodeError "invalid digit found in string")
  | some v => .ok { id := v }

/-- `InfluxID::from_be_bytes` (reader.rs). -/
def InfluxID.from_be_bytes (bytes : List Nat) : InfluxID :=
  { id := fromBEBytes bytes }

/-- `IndexEntry::org_id` (reader.rs): the first 8 key bytes, big-endian. -/
def IndexEntry.org_id (e : IndexEntry) : InfluxID :=
  InfluxID.from_be_bytes (e.key.take 8)

/-- `IndexEntry::bucket_id` (reader.rs): key bytes 8..16, big-endian. -/
def IndexEntry.bucket_id (e : IndexEntry) : InfluxID :=
  InfluxID.from_be_bytes ((e.key.drop 8).take 8)

/-- The lowercase hexadecimal digit character for `d < 16` (the `{:x}`
formatting of `std::fmt`). -/
def hexChar (d : Nat) : Char :=
  if d < 10 then Char.ofNat ('0'.toNat + d)
  else Char.ofNat ('a'.toNat + (d - 10))

/-- Little-endian list of hexadecimal digits of `n` (empty for 0). -/
def toHexRev (n : Nat) : List Char :=
  if n = 0 then []
  else hexChar (n % 16) :: toHexRev (n / 16)
decreasing_by exact Nat.div_lt_self (Nat.pos_of_ne_zero (by assumption)) (by omega)

/-- `<InfluxID as Display>::fmt` (reader.rs): `{:016x}` — the lowercase
hexadecimal digits of the value, zero-padded on the left to width 16. -/
def formatInfluxID (x : InfluxID) : List Char :=
  let ds := if x.id = 0 then ['0'] else (toHexRev x.id).reverse
  List.replicate (16 - ds.length) '0' ++ ds

/-! ## Auxiliary definitions used to state the theorems -/

/-- Big-endian encoding of `n` into `w` bytes (the inverse of the §6
record layout read back by `fromBEBytes`). -/
def beBytes : Nat → Nat → List Nat
  | 0, _ => []
  | w + 1, n => beBytes w (n / 256) ++ [n % 256]

/-- Big-endian `i64` encoding: the two's-complement bit pattern. -/
def encodeI64 (z : Int) : List Nat :=
  beBytes 8 (z % (2 ^ 64 : Int)).toNat

/-- The 28-byte on-disk block record of §6
(`i64` min time, `i64` max time, `u64` offset, `u32` size). -/
def encodeBlock (b : Block) : List Nat :=
  encodeI64 b.min_time ++ encodeI64 b.max_time ++
    beBytes 8 b.offset ++ beBytes 4 b.size

/-- The on-disk series header of §6
(`u16` key length, key bytes, `u8` block type, `u16` count). -/
def encodeSeriesHeader (key : List Nat) (bt : Nat) (count : Nat) : List Nat :=
  beBytes 2 key.length ++ key ++ [bt] ++ beBytes 2 count

/-- Advance a reader state by `n` consumed bytes (cursor and offset). -/
def stateAdd (s : TSMIndexReader) (n : Nat) : TSMIndexReader :=
  { s with r := { s.r with pos := s.r.pos + n },
           curr_offset := s.curr_offset + n }

/-- A placeholder block used with `List.getD`. -/
def dummyBlock : Block :=
  { min_time := 0, max_time := 0, offset := 0, size := 0 }

/-- The entries the iterator produces while walking the remaining block
records of the series of `e`: each step overwrites the block and bumps
the cursor. -/
def expectedEntries (e : IndexEntry) :
    List Block → List (Except TSMError IndexEntry)
  | [] => []
  | b :: bs =>
    let e' := { e with block := b, curr_block := (e.curr_block + 1) % 65536 }
    .ok e' :: expectedEntries e' bs

/-- The cursor invariant maintained by the iterator (with the `u16`
range facts needed to push it through the `% 65536` increment). -/
def entryInv (e : IndexEntry) : Prop :=
  1 ≤ e.curr_block ∧ e.curr_block ≤ max e.count 1 ∧
    e.curr_block < 65536 ∧ e.count < 65536

/-- Build the reader over a file and run the first `next()` call,
keeping only the produced item (`none` when construction fails). -/
def firstNextOutcome (file : List Nat) (len : Nat) :
    Option (Option (Except TSMError IndexEntry)) :=
  match try_new { data := file, pos := 0 } len with
  | .error _ => none
  | .ok s => some (iterNext s).1

/-- The lowercase hexadecimal digit characters. -/
def lowHexChars : List Char :=
  (String.toList "0123456789abcdef")

/-- `TAG_PAIRS` serialization of §4.1, with the trailing comma that
separates the tag section from the field sentinel folded onto each pair:
`name 0x3D value 0x2C` for each pair. -/
def tagPairsBytes (pairs : List (List Nat × List Nat)) : List Nat :=
  (pairs.map (fun p => p.1 ++ [61] ++ p.2 ++ [44])).flatten

/-- A well-formed series key per the §4.1 layout: 16 id bytes, the three
framing bytes `0x2C 0x00 0x3D`, the measurement, a comma, the tag pairs,
the `0x2C 0xFF 0x3D` field sentinel and the field blob. -/
def seriesKeyBytes (pre meas : List Nat) (pairs : List (List Nat × List Nat))
    (blob : List Nat) : List Nat :=
  pre ++ [44, 0, 61] ++ meas ++ [44] ++ tagPairsBytes pairs ++ [255, 61] ++ blob

/-- Bytes that are neither the pair separator `0x2C` nor `0x3D`. -/
def noSep (bs : List Nat) : Prop := ∀ b ∈ bs, b ≠ 44 ∧ b ≠ 61

instance (bs : List Nat) : Decidable (noSep bs) := by
  unfold noSep; infer_instance

/-! ### Concrete data for witnesses and counterexamples -/

/-- Org/bucket id bytes of the §8 fixture key. -/
def fixturePre : List Nat :=
  [0x05, 0xC1, 0x91, 0x17, 0x09, 0x1A, 0x10, 0x00,
   0x05, 0xC1, 0x91, 0x17, 0x09, 0x1A, 0x10, 0x01]

/-- Measurement bytes of the §8 fixture key
(`http_api_request_duration_seconds`). -/
def fixtureMeas : List Nat :=
  (String.toList "http_api_request_duration_seconds").map Char.toNat

/-- Tag pairs of the §8 fixture key. -/
def fixturePairs : List (List Nat × List Nat) :=
  [((String.toList "handler").map Char.toNat,
    (String.toList "platform").map Char.toNat),
   ((String.toList "method").map Char.toNat,
    (String.toList "POST").map Char.toNat),
   ((String.toList "path").map Char.toNat,
    (String.toList "/api/v2/setup").map Char.toNat),
   ((String.toList "status").map Char.toNat,
    (String.toList "2XX").map Char.toNat),
   ((String.toList "user_agent").map Char.toNat,
    (String.toList "Firefox").map Char.toNat)]

/-- Field blob of the §8 fixture key (`sum#!~#sum`). -/
def fixtureBlob : List Nat :=
  (String.toList "sum#!~#sum").map Char.toNat

/-- An index file holding one series header with `count = 0`, a 17-byte
key, one 28-byte block record and the 8-byte index-offset trailer. -/
def count0File17 : List Nat :=
  [0, 17] ++ List.replicate 17 9 ++ [0] ++ [0, 0] ++
    List.replicate 28 0 ++ List.replicate 8 0

/-- An index file holding one series header with `count = 0` and a 5-byte
key (shorter than the 17 bytes the invariant asserts). -/
def count0File5 : List Nat :=
  [0, 5] ++ List.replicate 5 9 ++ [0] ++ [0, 0] ++
    List.replicate 28 0 ++ List.replicate 8 0

/-- Timestamp/integer decoder that always produces the empty column. -/
def tsDecNil : List Nat → Except String (List Int) := fun _ => .ok []

/-- Float decoder that always produces the empty column. -/
def fDecNil : List Nat → Except String (List Nat) := fun _ => .ok []

/-- Timestamp decoder producing one value per input byte. -/
def tsDecByte : List Nat → Except String (List Int) :=
  fun bs => .ok (bs.map (fun b => (b : Int)))

/-- Float decoder returning its input bytes as the value column. -/
def fDecByte : List Nat → Except String (List Nat) := fun bs => .ok bs

/-- Timestamp decoder that always fails. -/
def tsDecBad : List Nat → Except String (List Int) := fun _ => .error "boom"

/-- A block payload of type float whose timestamp stream holds one value
and whose value stream holds two: `crc(4) type(1)=0 varint(1)=1 ts(1)
values(2)`. -/
def lopsidedData : List Nat := [0, 0, 0, 0, 0, 1, 9, 7, 7]

/-- A block payload with the bool type marker (2). -/
def boolBlockData : List Nat := [0, 0, 0, 0, 2, 1, 9]

/-- A block payload with the string type marker (3). -/
def strBlockData : List Nat := [0, 0, 0, 0, 3, 1, 9]

/-- A minimal float block payload with empty streams. -/
def emptyFloatData : List Nat := [0, 0, 0, 0, 0, 0]

/-- A minimal bool block payload with empty streams. -/
def emptyBoolData : List Nat := [0, 0, 0, 0, 2, 0]

/-- Does a decode outcome carry the unsupported-block-type error kind? -/
def isUnsupported : DecodeOutcome → Bool
  | .err (.unsupportedBlockType _) => true
  | _ => false

deriving instance DecidableEq for Except

/-! ## Byte-level lemmas -/

theorem beBytes_length (w n : Nat) : (beBytes w n).length = w := by
  induction w generalizing n with
  | zero => rfl
  | succ w ih => simp [beBytes, ih]

theorem fromBEBytes_beBytes (w n : Nat) :
    fromBEBytes (beBytes w n) = n % 256 ^ w := by
  induction w generalizing n with
  | zero => simp [beBytes, fromBEBytes, Nat.mod_one]
  | succ w ih =>
    have h : fromBEBytes (beBytes w (n / 256) ++ [n % 256]) =
        fromBEBytes (beBytes w (n / 256)) * 256 + n % 256 := by
      simp [fromBEBytes, List.foldl_append]
    have hm : n % (256 ^ w * 256) = n % 256 + 256 * (n / 256 % 256 ^ w) := by
      rw [mul_comm]; exact Nat.mod_mul
    calc fromBEBytes (beBytes (w + 1) n)
        = fromBEBytes (beBytes w (n / 256)) * 256 + n % 256 := h
      _ = (n / 256 % 256 ^ w) * 256 + n % 256 := by rw [ih]
      _ = n % 256 ^ (w + 1) := by rw [pow_succ, hm]; ring

theorem fromBEBytes_lt_aux (bs : List Nat) :
    ∀ acc, (∀ b ∈ bs, b < 256) →
      bs.foldl (fun acc b => acc * 256 + b) acc < (acc + 1) * 256 ^ bs.length := by
  induction bs with
  | nil => intro acc _; simp
  | cons b bs ih =>
    intro acc hb
    have hb0 : b < 256 := hb b (by simp)
    have h1 := ih (acc * 256 + b) (fun x hx => hb x (by simp [hx]))
    have h2 : (acc * 256 + b + 1) * 256 ^ bs.length ≤
        (acc + 1) * 256 ^ (bs.length + 1) := by
      have : acc * 256 + b + 1 ≤ (acc + 1) * 256 := by omega
      calc (acc * 256 + b + 1) * 256 ^ bs.length
          ≤ ((acc + 1) * 256) * 256 ^ bs.length :=
            Nat.mul_le_mul_right _ this
        _ = (acc + 1) * 256 ^ (bs.length + 1) := by ring
    calc List.foldl (fun acc b => acc * 256 + b) acc (b :: bs)
        = List.foldl (fun acc b => acc * 256 + b) (acc * 256 + b) bs := rfl
      _ < (acc * 256 + b + 1) * 256 ^ bs.length := h1
      _ ≤ (acc + 1) * 256 ^ (bs.length + 1) := h2

theorem fromBEBytes_lt (bs : List Nat) (hb : ∀ b ∈ bs, b < 256) :
    fromBEBytes bs < 256 ^ bs.length := by
  have := fromBEBytes_lt_aux bs 0 hb
  simpa [fromBEBytes] using this

theorem toI64_encodeI64 (z : Int) (h1 : -2 ^ 63 ≤ z) (h2 : z < 2 ^ 63) :
    toI64 (fromBEBytes (encodeI64 z)) = z := by
  have hlt : (z % (2 ^ 64 : Int)).toNat < 2 ^ 64 := by omega
  have h256 : (256 : Nat) ^ 8 = 2 ^ 64 := by norm_num
  have hm : fromBEBytes (encodeI64 z) = (z % (2 ^ 64 : Int)).toNat := by
    rw [encodeI64, fromBEBytes_beBytes, h256, Nat.mod_eq_of_lt hlt]
  rw [hm, toI64]
  split <;> push_cast <;> omega

/-- All bytes of a big-endian encoding are bytes. -/
theorem beBytes_lt (w n : Nat) : ∀ b ∈ beBytes w n, b < 256 := by
  induction w generalizing n with
  | zero => simp [beBytes]
  | succ w ih =>
    intro b hb
    simp only [beBytes, List.mem_append, List.mem_singleton] at hb
    rcases hb with h | h
    · exact ih _ b h
    · omega

theorem readExact_some {s : ByteSource} {n : Nat} {out : List Nat}
    {s' : ByteSource} (h : readExact s n = some (out, s')) :
    s'.data = s.data ∧ s'.pos = s.pos + n ∧
      out = (s.data.drop s.pos).take n ∧
      s.pos + n ≤ s.data.length ∧ out.length = n := by
  unfold readExact at h
  split at h
  · rename_i hle
    injection h with h
    injection h with h1 h2
    subst h1; subst h2
    refine ⟨rfl, rfl, rfl, hle, ?_⟩
    rw [List.length_take, List.length_drop]
    omega
  · exact absurd h (by simp)

theorem readExact_chunk {data : List Nat} {pos n : Nat} {chunk rest : List Nat}
    (hpos : pos ≤ data.length) (h : data.drop pos = chunk ++ rest)
    (hn : chunk.length = n) :
    readExact ⟨data, pos⟩ n = some (chunk, ⟨data, pos + n⟩) ∧
      data.drop (pos + n) = rest ∧ pos + n ≤ data.length := by
  have hlen : data.length - pos = chunk.length + rest.length := by
    have := congrArg List.length h
    simpa [List.length_drop] using this
  have hle : pos + n ≤ data.length := by omega
  have htake : (data.drop pos).take n = chunk := by
    rw [h, ← hn, List.take_left]
  have hdrop : data.drop (pos + n) = rest := by
    rw [← List.drop_drop, h, ← hn, List.drop_left]
  refine ⟨?_, hdrop, hle⟩
  unfold readExact
  simp only [hle, if_pos, htake]

theorem readExact_bytes {s : ByteSource} {n : Nat} {out : List Nat}
    {s' : ByteSource} (h : readExact s n = some (out, s'))
    (hb : ∀ b ∈ s.data, b < 256) : ∀ b ∈ out, b < 256 := by
  obtain ⟨-, -, hout, -, -⟩ := readExact_some h
  intro b hbm
  exact hb b (List.mem_of_mem_drop (List.mem_of_mem_take (hout ▸ hbm)))

/-! ## InfluxID formatting and parsing (C7) -/

theorem hexVal_hexChar : ∀ d, d < 16 → hexVal (hexChar d) = some d := by
  decide

theorem hexChar_mem_lowHex : ∀ d, d < 16 → hexChar d ∈ lowHexChars := by
  decide

theorem fromStrRadix16Loop_append (xs ys : List Char) :
    ∀ acc, fromStrRadix16Loop (xs ++ ys) acc =
      (fromStrRadix16Loop xs acc).bind (fun a => fromStrRadix16Loop ys a) := by
  induction xs with
  | nil => intro acc; rfl
  | cons c xs ih =>
    intro acc
    simp only [List.cons_append, fromStrRadix16Loop]
    cases hexVal c with
    | none => rfl
    | some d =>
      simp only
      split
      · exact ih _
      · rfl

theorem toHexRev_mem (n : Nat) : ∀ c ∈ toHexRev n, c ∈ lowHexChars := by
  induction n using Nat.strong_induction_on with
  | _ n ih =>
    rw [toHexRev]
    split
    · simp
    · rename_i hn
      intro c hc
      rcases List.mem_cons.mp hc with h | h
      · exact h ▸ hexChar_mem_lowHex _ (Nat.mod_lt _ (by omega))
      · exact ih (n / 16) (Nat.div_lt_self (by omega) (by omega)) c h

theorem toHexRev_length_le : ∀ k n, n < 16 ^ k → (toHexRev n).length ≤ k := by
  intro k
  induction k with
  | zero =>
    intro n hn
    interval_cases n
    rw [toHexRev]; simp
  | succ k ih =>
    intro n hn
    rw [toHexRev]
    split
    · simp
    · rename_i h0
      have : n / 16 < 16 ^ k := by
        rw [Nat.div_lt_iff_lt_mul (by norm_num)]
        calc n < 16 ^ (k + 1) := hn
          _ = 16 ^ k * 16 := by ring
      simpa using Nat.succ_le_succ (ih (n / 16) this)

theorem fromStrRadix16Loop_toHexRev (n : Nat) :
    ∀ acc, acc * 16 ^ (toHexRev n).length + n < 2 ^ 64 →
      fromStrRadix16Loop (toHexRev n).reverse acc =
        some (acc * 16 ^ (toHexRev n).length + n) := by
  induction n using Nat.strong_induction_on with
  | _ n ih =>
    intro acc hacc
    by_cases hn : n = 0
    · subst hn
      rw [toHexRev]
      simp [fromStrRadix16Loop]
    · rw [toHexRev, if_neg hn] at hacc ⊢
      simp only [List.reverse_cons, List.length_cons] at hacc ⊢
      rw [fromStrRadix16Loop_append]
      have hdm : 16 * (n / 16) + n % 16 = n := Nat.div_add_mod n 16
      have hX : acc * 16 ^ ((toHexRev (n / 16)).length + 1) =
          acc * 16 ^ (toHexRev (n / 16)).length * 16 := by
        rw [pow_succ]; ring
      rw [hX] at hacc ⊢
      have hrec : acc * 16 ^ (toHexRev (n / 16)).length + n / 16 < 2 ^ 64 := by
        omega
      rw [ih (n / 16) (Nat.div_lt_self (by omega) (by omega)) acc hrec]
      simp only [Option.some_bind, fromStrRadix16Loop,
        hexVal_hexChar (n % 16) (Nat.mod_lt _ (by omega))]
      have hlt : (acc * 16 ^ (toHexRev (n / 16)).length + n / 16) * 16 + n % 16 <
          2 ^ 64 := by omega
      rw [if_pos hlt]
      congr 1
      omega

theorem fromStrRadix16Loop_zeros (k : Nat) :
    fromStrRadix16Loop (List.replicate k '0') 0 = some 0 := by
  induction k with
  | zero => rfl
  | succ k ih =>
    rw [List.replicate_succ]
    simp only [fromStrRadix16Loop]
    norm_num [hexVal]
    exact ih

theorem formatInfluxID_mem (x : InfluxID) :
    ∀ c ∈ formatInfluxID x, c ∈ lowHexChars := by
  intro c hc
  unfold formatInfluxID at hc
  rcases List.mem_append.mp hc with h | h
  · rw [List.eq_of_mem_replicate h]; decide
  · split at h
    · simp only [List.mem_singleton] at h; rw [h]; decide
    · exact toHexRev_mem _ c (List.mem_reverse.mp h)

theorem formatInfluxID_length (x : InfluxID) (hx : x.id < 2 ^ 64) :
    (formatInfluxID x).length = 16 := by
  unfold formatInfluxID
  have h16 : (16 : Nat) ^ 16 = 2 ^ 64 := by norm_num
  have hle : (toHexRev x.id).length ≤ 16 :=
    toHexRev_length_le 16 x.id (h16 ▸ hx)
  split
  · simp
  · simp only [List.length_append, List.length_replicate, List.length_reverse]
    omega

theorem formatInfluxID_ne_nil (x : InfluxID) : formatInfluxID x ≠ [] := by
  unfold formatInfluxID
  split
  · simp
  · rename_i h0
    have : toHexRev x.id ≠ [] := by
      rw [toHexRev, if_neg h0]; simp
    simp only [ne_eq, List.append_eq_nil, List.reverse_eq_nil_iff]
    tauto

/-- C7: for every 64-bit identifier, parsing the formatted hexadecimal
text yields the identifier back, and the formatted text is exactly 16
lowercase hexadecimal digits (zero-padded). -/
theorem C7_identifier_roundtrip (id : Nat) (h : id < 2 ^ 64) :
    InfluxID.new_str (formatInfluxID ⟨id⟩) = .ok ⟨id⟩ ∧
      (formatInfluxID ⟨id⟩).length = 16 ∧
      ∀ c ∈ formatInfluxID ⟨id⟩, c ∈ lowHexChars := by
  refine ⟨?_, formatInfluxID_length ⟨id⟩ h, formatInfluxID_mem ⟨id⟩⟩
  have hne := formatInfluxID_ne_nil ⟨id⟩
  have hmem := formatInfluxID_mem ⟨id⟩
  have hhead : ¬ (formatInfluxID ⟨id⟩).head? = some '+' := by
    cases hf : formatInfluxID ⟨id⟩ with
    | nil => exact absurd hf hne
    | cons c l' =>
      simp only [List.head?_cons]
      intro hc
      injection hc with hc
      have : c ∈ lowHexChars := hmem c (by rw [hf]; exact List.mem_cons_self c l')
      rw [hc] at this
      exact absurd this (by decide)
  have hloop : fromStrRadix16Loop (formatInfluxID ⟨id⟩) 0 = some id := by
    unfold formatInfluxID
    rw [fromStrRadix16Loop_append, fromStrRadix16Loop_zeros, Option.some_bind]
    split
    · rename_i h0
      have h0' : id = 0 := h0
      subst h0'
      decide
    · rename_i h0
      have hlen : (0 : Nat) * 16 ^ (toHexRev id).length + id < 2 ^ 64 := by
        simpa using h
      rw [fromStrRadix16Loop_toHexRev id 0 hlen]
      simp
  have hemp : (formatInfluxID ⟨id⟩).isEmpty = false := by
    cases hf : formatInfluxID ⟨id⟩ with
    | nil => exact absurd hf hne
    | cons c l' => rfl
  unfold InfluxID.new_str from_str_radix16
  rw [if_neg hhead]
  simp only [hemp, Bool.false_eq_true, if_false, hloop]

/-- Witness for C7 at the §8 fixture identifier 34253232
(`20aa9b0` parses to it; it formats as `00000000020aa9b0`). -/
theorem C7_identifier_roundtrip_witness :
    InfluxID.new_str (formatInfluxID ⟨34253232⟩) = .ok ⟨34253232⟩ ∧
      (formatInfluxID ⟨34253232⟩).length = 16 :=
  ⟨(C7_identifier_roundtrip 34253232 (by norm_num)).1,
   (C7_identifier_roundtrip 34253232 (by norm_num)).2.1⟩

/-! ## Index reader: reading well-formed records -/

theorem stateAdd_stateAdd (s : TSMIndexReader) (m n : Nat) :
    stateAdd (stateAdd s m) n = stateAdd s (m + n) := by
  simp [stateAdd, Nat.add_assoc]

theorem stateAdd_fields (s : TSMIndexReader) (n : Nat) :
    (stateAdd s n).r.data = s.r.data ∧ (stateAdd s n).r.pos = s.r.pos + n ∧
      (stateAdd s n).curr_offset = s.curr_offset + n ∧
      (stateAdd s n).end_offset = s.end_offset ∧
      (stateAdd s n).curr = s.curr ∧ (stateAdd s n).next = s.next := by
  simp [stateAdd]

theorem encodeBlock_length (b : Block) : (encodeBlock b).length = 28 := by
  simp [encodeBlock, encodeI64, beBytes_length]

theorem next_block_entry_spec {s : TSMIndexReader} {b : Block} {rest : List Nat}
    (hwf : b.wf) (hpos : s.r.pos ≤ s.r.data.length)
    (hdata : s.r.data.drop s.r.pos = encodeBlock b ++ rest) :
    next_block_entry s = (.ok b, stateAdd s 28) := by
  obtain ⟨hmin1, hmin2, hmax1, hmax2, hoff, hsz⟩ := hwf
  obtain ⟨⟨data, pos⟩, co, eo, cu, nx⟩ := s
  simp only at hpos hdata
  simp only [encodeBlock, List.append_assoc] at hdata
  have e8 : ∀ z : Int, (encodeI64 z).length = 8 := fun z => by
    rw [encodeI64, beBytes_length]
  have h1 := readExact_chunk hpos hdata (e8 b.min_time)
  have h2 := readExact_chunk h1.2.2 h1.2.1 (e8 b.max_time)
  have h3 := readExact_chunk h2.2.2 h2.2.1 (beBytes_length 8 b.offset)
  have h4 := readExact_chunk h3.2.2 h3.2.1 (beBytes_length 4 b.size)
  have hq1 : toI64 (fromBEBytes (encodeI64 b.min_time)) = b.min_time :=
    toI64_encodeI64 _ hmin1 hmin2
  have hq2 : toI64 (fromBEBytes (encodeI64 b.max_time)) = b.max_time :=
    toI64_encodeI64 _ hmax1 hmax2
  have hq3 : fromBEBytes (beBytes 8 b.offset) = b.offset := by
    rw [fromBEBytes_beBytes]
    exact Nat.mod_eq_of_lt (by norm_num at hoff ⊢; omega)
  have hq4 : fromBEBytes (beBytes 4 b.size) = b.size := by
    rw [fromBEBytes_beBytes]
    exact Nat.mod_eq_of_lt (by norm_num at hsz ⊢; omega)
  unfold next_block_entry
  simp only [h1.1, h2.1, h3.1, h4.1, hq1, hq2, hq3, hq4, stateAdd]

theorem next_index_entry_spec {s : TSMIndexReader} {key : List Nat} {bt k : Nat}
    {b : Block} {rest : List Nat}
    (hwf : b.wf) (hkl : key.length < 65536) (hk : k < 65536)
    (hpos : s.r.pos ≤ s.r.data.length)
    (hdata : s.r.data.drop s.r.pos =
      encodeSeriesHeader key bt k ++ (encodeBlock b ++ rest)) :
    next_index_entry s =
      (.ok { key := key, block_type := bt, count := k, block := b,
             curr_block := 1 }, stateAdd s (33 + key.length)) := by
  obtain ⟨⟨data, pos⟩, co, eo, cu, nx⟩ := s
  simp only at hpos hdata
  simp only [encodeSeriesHeader, List.append_assoc] at hdata
  have h1 := readExact_chunk hpos hdata (beBytes_length 2 key.length)
  have hkl' : fromBEBytes (beBytes 2 key.length) = key.length := by
    rw [fromBEBytes_beBytes]
    exact Nat.mod_eq_of_lt (by norm_num at hkl ⊢; omega)
  have h2 := readExact_chunk h1.2.2 h1.2.1 (rfl : key.length = key.length)
  have h3 := readExact_chunk h2.2.2 h2.2.1 (rfl : [bt].length = 1)
  simp only [List.length_singleton] at h3
  have h4 := readExact_chunk h3.2.2 h3.2.1 (beBytes_length 2 k)
  have hcount : fromBEBytes (beBytes 2 k) = k := by
    rw [fromBEBytes_beBytes]
    exact Nat.mod_eq_of_lt (by norm_num at hk ⊢; omega)
  have hbt : fromBEBytes [bt] = bt := by simp [fromBEBytes]
  have hblk : next_block_entry
      ⟨⟨data, pos + 2 + key.length + 1 + 2⟩, co + 2 + key.length + 1 + 2, eo, cu, nx⟩ =
      (.ok b, stateAdd ⟨⟨data, pos + 2 + key.length + 1 + 2⟩,
        co + 2 + key.length + 1 + 2, eo, cu, nx⟩ 28) :=
    next_block_entry_spec hwf (by simp only; omega)
      (by simp only; exact h4.2.1)
  unfold next_index_entry
  simp only [h1.1, hkl', h2.1, h3.1, h4.1, hcount, hbt, hblk]
  simp only [stateAdd, Prod.mk.injEq, TSMIndexReader.mk.injEq, ByteSource.mk.injEq]
  refine ⟨trivial, ⟨trivial, ?_⟩, ?_, trivial, trivial, trivial⟩ <;> omega

theorem iterNext_newSeries {s : TSMIndexReader} {key : List Nat} {bt k : Nat}
    {b : Block} {rest : List Nat}
    (hwf : b.wf) (hkl : key.length < 65536) (hk : k < 65536)
    (hne : s.curr_offset ≠ s.end_offset)
    (hbound : ∀ e, s.curr = some e → ¬ e.curr_block < e.count)
    (hpos : s.r.pos ≤ s.r.data.length)
    (hdata : s.r.data.drop s.r.pos =
      encodeSeriesHeader key bt k ++ (encodeBlock b ++ rest)) :
    iterNext s =
      (some (.ok { key := key, block_type := bt, count := k, block := b,
                   curr_block := 1 }),
       { stateAdd s (33 + key.length) with
           curr := some { key := key, block_type := bt, count := k, block := b,
                          curr_block := 1 },
           next := some { key := key, block_type := bt, count := k, block := b,
                          curr_block := 1 } }) := by
  have hspec := next_index_entry_spec hwf hkl hk hpos hdata
  unfold iterNext
  rw [if_neg hne]
  cases hcu : s.curr with
  | none => simp only [hspec, stateAdd]
  | some c =>
    simp only [if_neg (hbound c hcu), hspec, stateAdd]

theorem iterNext_continue {s : TSMIndexReader} {c : IndexEntry} {b : Block}
    {rest : List Nat}
    (hwf : b.wf) (hcu : s.curr = some c) (hlt : c.curr_block < c.count)
    (hc16 : c.count < 65536)
    (hne : s.curr_offset ≠ s.end_offset)
    (hpos : s.r.pos ≤ s.r.data.length)
    (hdata : s.r.data.drop s.r.pos = encodeBlock b ++ rest) :
    iterNext s =
      (some (.ok { c with block := b, curr_block := c.curr_block + 1 }),
       { stateAdd s 28 with
           curr := some { c with block := b, curr_block := c.curr_block + 1 },
           next := some { c with block := b, curr_block := c.curr_block + 1 } }) := by
  have hspec := next_block_entry_spec hwf hpos hdata
  have hmod : (c.curr_block + 1) % 65536 = c.curr_block + 1 :=
    Nat.mod_eq_of_lt (by omega)
  unfold iterNext
  rw [if_neg hne, hcu]
  simp only [if_pos hlt, hspec, hmod, stateAdd]

/-- C9: a series header declaring `count = 0` still makes the reader
consume one 28-byte block record and yield one `IndexEntry` with
`cursor = 1` and `count = 0`; since its cursor is not below its count,
the following call reads the next series header. -/
theorem C9_count_zero_entry {s : TSMIndexReader} {key : List Nat} {bt : Nat}
    {b : Block} {rest : List Nat}
    (hwf : b.wf) (hkl : key.length < 65536)
    (hne : s.curr_offset ≠ s.end_offset)
    (hbound : ∀ e, s.curr = some e → ¬ e.curr_block < e.count)
    (hpos : s.r.pos ≤ s.r.data.length)
    (hdata : s.r.data.drop s.r.pos =
      encodeSeriesHeader key bt 0 ++ (encodeBlock b ++ rest)) :
    (iterNext s).1 = some (.ok { key := key, block_type := bt, count := 0,
                                 block := b, curr_block := 1 }) ∧
      (iterNext s).2.r.pos = s.r.pos + (5 + key.length + 28) ∧
      (iterNext s).2.curr = some { key := key, block_type := bt, count := 0,
                                   block := b, curr_block := 1 } ∧
      ∀ e, (iterNext s).2.curr = some e → ¬ e.curr_block < e.count := by
  rw [iterNext_newSeries hwf hkl (by norm_num) hne hbound hpos hdata]
  refine ⟨rfl, ?_, rfl, ?_⟩
  · simp only [stateAdd]
    omega
  · intro e he
    simp only [Option.some.injEq] at he
    subst he
    simp

/-- Witness for C9: a concrete source holding one `count = 0` header
with a 3-byte key followed by one block record. -/
theorem C9_count_zero_entry_witness :
    (iterNext ⟨⟨encodeSeriesHeader [7, 7, 7] 1 0 ++
        (encodeBlock ⟨1, 2, 3, 4⟩ ++ []), 0⟩, 0, 1000, none, none⟩).1 =
      some (.ok { key := [7, 7, 7], block_type := 1, count := 0,
                  block := ⟨1, 2, 3, 4⟩, curr_block := 1 }) ∧
    (iterNext ⟨⟨encodeSeriesHeader [7, 7, 7] 1 0 ++
        (encodeBlock ⟨1, 2, 3, 4⟩ ++ []), 0⟩, 0, 1000, none, none⟩).2.r.pos = 36 := by
  have h := @C9_count_zero_entry
    ⟨⟨encodeSeriesHeader [7, 7, 7] 1 0 ++
      (encodeBlock ⟨1, 2, 3, 4⟩ ++ []), 0⟩, 0, 1000, none, none⟩
    [7, 7, 7] 1 ⟨1, 2, 3, 4⟩ []
    (by decide) (by norm_num) (by norm_num)
    (fun e he => Option.noConfusion he) (Nat.zero_le _) rfl
  exact ⟨h.1, h.2.1⟩

/-- C8: over a file whose trailing 8 bytes denote an offset past the end
of the file, constructing the reader succeeds and the first `next()`
yields the read failure (IoError kind). -/
theorem C8_offset_past_end (file : List Nat)
    (h8 : 8 ≤ file.length) (h64 : file.length < 2 ^ 64)
    (hpast : file.length < fromBEBytes (file.drop (file.length - 8))) :
    firstNextOutcome file file.length =
      some (some (.error (.ioError ioMsg))) := by
  have htake : (file.drop (file.length - 8)).take 8 = file.drop (file.length - 8) := by
    apply List.take_of_length_le
    rw [List.length_drop]
    omega
  have hseek : seekFromEnd8 ⟨file, 0⟩ = some ⟨file, file.length - 8⟩ := by
    unfold seekFromEnd8
    rw [if_neg (by simp only; omega)]
  have hread : readExact ⟨file, file.length - 8⟩ 8 =
      some (file.drop (file.length - 8), ⟨file, file.length⟩) := by
    have hpp : file.length - 8 + 8 = file.length := by omega
    unfold readExact
    rw [if_pos (by simp only; omega)]
    simp only [htake, hpp]
  have hend : (file.length + (2 ^ 64 - 8)) % 2 ^ 64 = file.length - 8 := by
    omega
  have hio : readExact ⟨file, fromBEBytes (file.drop (file.length - 8))⟩ 2 = none := by
    unfold readExact
    rw [if_neg (by simp only; omega)]
  unfold firstNextOutcome try_new
  simp only [hseek, hread, seekTo]
  simp only [iterNext, hend]
  rw [if_neg (by omega)]
  simp only [next_index_entry, hio]

/-- Witness for C8: an 8-byte file whose trailer points at offset 9,
past the end. -/
theorem C8_offset_past_end_witness :
    firstNextOutcome [0, 0, 0, 0, 0, 0, 0, 9] 8 =
      some (some (.error (.ioError ioMsg))) :=
  C8_offset_past_end [0, 0, 0, 0, 0, 0, 0, 9] (by norm_num) (by norm_num)
    (by decide)

theorem runNext_succ (s : TSMIndexReader) (n : Nat) :
    runNext s (n + 1) =
      match iterNext s with
      | (none, _) => []
      | (some res, s') => res :: runNext s' n := rfl

theorem encodeSeriesHeader_length (key : List Nat) (bt k : Nat) :
    (encodeSeriesHeader key bt k).length = 5 + key.length := by
  simp [encodeSeriesHeader, beBytes_length]
  omega

theorem runNext_tail (recs : List Block) :
    ∀ (s : TSMIndexReader) (e : IndexEntry) (rest : List Nat),
      s.curr = some e →
      (∀ b ∈ recs, b.wf) →
      e.curr_block + recs.length = e.count →
      1 ≤ e.curr_block →
      e.count < 65536 →
      s.r.pos = s.curr_offset →
      s.r.pos ≤ s.r.data.length →
      s.r.data.drop s.r.pos = (recs.map encodeBlock).flatten ++ rest →
      s.curr_offset + 28 * recs.length ≤ s.end_offset →
      runNext s recs.length = expectedEntries e recs := by
  induction recs with
  | nil =>
    intro s e rest _ _ _ _ _ _ _ _ _
    rfl
  | cons b bs ih =>
    intro s e rest hcu hwf hcount h1 h16 hsync hple hdata hend
    have hb : b.wf := hwf b (by simp)
    have hlen : (b :: bs).length = bs.length + 1 := by simp
    have hlt : e.curr_block < e.count := by
      rw [hlen] at hcount; omega
    have hne : s.curr_offset ≠ s.end_offset := by
      rw [hlen] at hend; omega
    have hdata' : s.r.data.drop s.r.pos =
        encodeBlock b ++ ((bs.map encodeBlock).flatten ++ rest) := by
      simpa [List.append_assoc] using hdata
    have hdlen : s.r.pos + 28 ≤ s.r.data.length := by
      have hcl := congrArg List.length hdata'
      simp only [List.length_drop, List.length_append, encodeBlock_length] at hcl
      omega
    have hstep := iterNext_continue hb hcu hlt h16 hne hple hdata'
    have hdrop : s.r.data.drop (s.r.pos + 28) =
        (bs.map encodeBlock).flatten ++ rest := by
      rw [← List.drop_drop, hdata', ← encodeBlock_length b, List.drop_left]
    rw [hlen, runNext_succ, hstep]
    have hmod : (e.curr_block + 1) % 65536 = e.curr_block + 1 :=
      Nat.mod_eq_of_lt (by omega)
    simp only [expectedEntries, hmod]
    refine congrArg _ ?_
    refine ih _ _ rest rfl
      (fun x hx => hwf x (by simp [hx])) ?_ (by simp) (by simp [h16])
      ?_ ?_ ?_ ?_
    · show e.curr_block + 1 + bs.length = e.count
      rw [hlen] at hcount
      omega
    · simp only [stateAdd]
      omega
    · simp only [stateAdd]
      omega
    · simp only [stateAdd]
      exact hdrop
    · simp only [stateAdd]
      rw [hlen] at hend
      omega

theorem expectedEntries_eq_map (recs : List Block) :
    ∀ (e : IndexEntry), e.curr_block + recs.length < 65536 →
      expectedEntries e recs = (List.range recs.length).map
        (fun i => .ok { e with block := recs.getD i dummyBlock,
                               curr_block := e.curr_block + 1 + i }) := by
  induction recs with
  | nil => intro e _; simp [expectedEntries]
  | cons b bs ih =>
    intro e hlt
    have hmod : (e.curr_block + 1) % 65536 = e.curr_block + 1 :=
      Nat.mod_eq_of_lt (by simp at hlt; omega)
    simp only [expectedEntries, hmod, List.length_cons, List.range_succ_eq_map,
      List.map_cons, List.map_map]
    congr 1
    rw [ih { e with block := b, curr_block := e.curr_block + 1 }
      (by simp at hlt ⊢; omega)]
    refine List.map_congr_left ?_
    intro i hi
    simp only [Function.comp_apply, List.getD, List.getElem?_cons_succ]
    congr 2
    omega

/-- C2 (amended): for a series whose header declares `count = k` with
`k ≥ 1`, the k successive `next()` calls yield exactly k entries sharing
the key, block type and count, with cursors 1, 2, ..., k and the k
successive 28-byte block records in file order. -/
theorem C2_series_iteration {s : TSMIndexReader} {key : List Nat}
    {bt : Nat} {recs : List Block} {rest : List Nat}
    (hk1 : 1 ≤ recs.length) (hk16 : recs.length < 65536)
    (hkl : key.length < 65536)
    (hwf : ∀ b ∈ recs, b.wf)
    (hbound : ∀ e, s.curr = some e → ¬ e.curr_block < e.count)
    (hsync : s.r.pos = s.curr_offset)
    (hple : s.r.pos ≤ s.r.data.length)
    (hdata : s.r.data.drop s.r.pos = encodeSeriesHeader key bt recs.length ++
      ((recs.map encodeBlock).flatten ++ rest))
    (hend : s.curr_offset + (5 + key.length + 28 * recs.length) ≤ s.end_offset) :
    runNext s recs.length = (List.range recs.length).map
      (fun i => .ok { key := key, block_type := bt, count := recs.length,
                      block := recs.getD i dummyBlock, curr_block := i + 1 }) := by
  obtain ⟨b, bs, rfl⟩ : ∃ b bs, recs = b :: bs := by
    cases recs with
    | nil => simp at hk1
    | cons b bs => exact ⟨b, bs, rfl⟩
  have hb : b.wf := hwf b (by simp)
  have hne : s.curr_offset ≠ s.end_offset := by
    simp only [List.length_cons] at hend
    omega
  have hdata1 : s.r.data.drop s.r.pos =
      encodeSeriesHeader key bt (b :: bs).length ++
        (encodeBlock b ++ ((bs.map encodeBlock).flatten ++ rest)) := by
    simpa [List.append_assoc] using hdata
  have hstep := iterNext_newSeries hb hkl hk16 hne hbound hple hdata1
  have hdlen : s.r.pos + (33 + key.length) ≤ s.r.data.length := by
    have hcl := congrArg List.length hdata1
    simp only [List.length_drop, List.length_append, encodeSeriesHeader_length,
      encodeBlock_length] at hcl
    omega
  have hdrop : s.r.data.drop (s.r.pos + (33 + key.length)) =
      (bs.map encodeBlock).flatten ++ rest := by
    have hsplit : encodeSeriesHeader key bt (b :: bs).length ++
        (encodeBlock b ++ ((bs.map encodeBlock).flatten ++ rest)) =
        (encodeSeriesHeader key bt (b :: bs).length ++ encodeBlock b) ++
          ((bs.map encodeBlock).flatten ++ rest) := by
      simp [List.append_assoc]
    have hplen : (encodeSeriesHeader key bt (b :: bs).length ++
        encodeBlock b).length = 33 + key.length := by
      simp only [List.length_append, encodeSeriesHeader_length, encodeBlock_length]
      omega
    rw [← List.drop_drop, hdata1, hsplit, ← hplen, List.drop_left]
  have htail := runNext_tail bs
    { stateAdd s (33 + key.length) with
        curr := some { key := key, block_type := bt, count := (b :: bs).length,
                       block := b, curr_block := 1 },
        next := some { key := key, block_type := bt, count := (b :: bs).length,
                       block := b, curr_block := 1 } }
    { key := key, block_type := bt, count := (b :: bs).length,
      block := b, curr_block := 1 }
    rest rfl (fun x hx => hwf x (by simp [hx]))
    (by show 1 + bs.length = (b :: bs).length; simp; omega)
    (by norm_num)
    (by show (b :: bs).length < 65536; exact hk16)
    (by show s.r.pos + (33 + key.length) = s.curr_offset + (33 + key.length);
        rw [hsync])
    (by show s.r.pos + (33 + key.length) ≤ s.r.data.length; exact hdlen)
    (by show s.r.data.drop (s.r.pos + (33 + key.length)) = _; exact hdrop)
    (by show s.curr_offset + (33 + key.length) + 28 * bs.length ≤ s.end_offset;
        simp only [List.length_cons] at hend; omega)
  rw [List.length_cons, runNext_succ, hstep]
  simp only []
  rw [htail]
  rw [expectedEntries_eq_map bs _
    (by show 1 + bs.length < 65536; simp only [List.length_cons] at hk16; omega)]
  rw [List.range_succ_eq_map, List.map_cons, List.map_map]
  congr 1
  refine List.map_congr_left ?_
  intro i hi
  simp only [Function.comp_apply, List.getD, List.getElem?_cons_succ]
  congr 2
  omega

/-- Counterexample to C2 as stated: a file whose single series header
declares `count = 0` still produces one `IndexEntry` (with `count = 0`
and `cursor = 1`) instead of zero. -/
theorem C2_count_zero_counterexample :
    (try_new ⟨count0File17, 0⟩ 58).toOption.map (fun s => runNext s 2) =
      some [.ok { key := List.replicate 17 9, block_type := 0, count := 0,
                  block := dummyBlock, curr_block := 1 }] ∧
    ¬ (0 : Nat) = 1 := by decide

/-- Witness for the amended C2 at a concrete two-block series. -/
theorem C2_series_iteration_witness :
    runNext ⟨⟨encodeSeriesHeader [5] 0 ([⟨1, 2, 3, 4⟩, ⟨5, 6, 7, 8⟩] : List Block).length ++
      ((([⟨1, 2, 3, 4⟩, ⟨5, 6, 7, 8⟩] : List Block).map encodeBlock).flatten ++ []),
      0⟩, 0, 62, none, none⟩ 2 =
      [.ok { key := [5], block_type := 0, count := 2,
             block := ⟨1, 2, 3, 4⟩, curr_block := 1 },
       .ok { key := [5], block_type := 0, count := 2,
             block := ⟨5, 6, 7, 8⟩, curr_block := 2 }] := by
  have h := @C2_series_iteration
    ⟨⟨encodeSeriesHeader [5] 0 ([⟨1, 2, 3, 4⟩, ⟨5, 6, 7, 8⟩] : List Block).length ++
      ((([⟨1, 2, 3, 4⟩, ⟨5, 6, 7, 8⟩] : List Block).map encodeBlock).flatten ++ []),
      0⟩, 0, 62, none, none⟩
    [5] 0 [⟨1, 2, 3, 4⟩, ⟨5, 6, 7, 8⟩] []
    (by norm_num) (by norm_num) (by norm_num) (by decide)
    (fun e he => Option.noConfusion he) rfl (Nat.zero_le _) rfl (by norm_num)
  exact h.trans (by decide)

/-! ## The cursor invariant over arbitrary byte sources (C3) -/

theorem readExact_data {s : ByteSource} {n : Nat} {out : List Nat}
    {s' : ByteSource} (h : readExact s n = some (out, s')) :
    s'.data = s.data := (readExact_some h).1

theorem next_block_entry_frame (s : TSMIndexReader) :
    (next_block_entry s).2.r.data = s.r.data ∧
      (next_block_entry s).2.curr = s.curr ∧
      (next_block_entry s).2.next = s.next := by
  unfold next_block_entry
  cases h1 : readExact s.r 8 with
  | none => exact ⟨rfl, rfl, rfl⟩
  | some p1 =>
    obtain ⟨b1, r1⟩ := p1
    have hd1 := readExact_data h1
    simp only []
    cases h2 : readExact r1 8 with
    | none => exact ⟨hd1, rfl, rfl⟩
    | some p2 =>
      obtain ⟨b2, r2⟩ := p2
      have hd2 := readExact_data h2
      simp only []
      cases h3 : readExact r2 8 with
      | none => exact ⟨hd2.trans hd1, rfl, rfl⟩
      | some p3 =>
        obtain ⟨b3, r3⟩ := p3
        have hd3 := readExact_data h3
        simp only []
        cases h4 : readExact r3 4 with
        | none => exact ⟨hd3.trans (hd2.trans hd1), rfl, rfl⟩
        | some p4 =>
          obtain ⟨b4, r4⟩ := p4
          have hd4 := readExact_data h4
          exact ⟨hd4.trans (hd3.trans (hd2.trans hd1)), rfl, rfl⟩

theorem next_index_entry_inv (s : TSMIndexReader)
    (hb : ∀ x ∈ s.r.data, x < 256) :
    (next_index_entry s).2.r.data = s.r.data ∧
      (next_index_entry s).2.curr = s.curr ∧
      (next_index_entry s).2.next = s.next ∧
      ∀ e, (next_index_entry s).1 = .ok e →
        e.curr_block = 1 ∧ e.count < 65536 := by
  unfold next_index_entry
  cases h1 : readExact s.r 2 with
  | none => exact ⟨rfl, rfl, rfl, fun e he => nomatch he⟩
  | some p1 =>
    obtain ⟨buf1, r1⟩ := p1
    have hd1 := readExact_data h1
    simp only []
    cases h2 : readExact r1 (fromBEBytes buf1) with
    | none => exact ⟨hd1, rfl, rfl, fun e he => nomatch he⟩
    | some p2 =>
      obtain ⟨key_bytes, r2⟩ := p2
      have hd2 := readExact_data h2
      simp only []
      cases h3 : readExact r2 1 with
      | none => exact ⟨hd2.trans hd1, rfl, rfl, fun e he => nomatch he⟩
      | some p3 =>
        obtain ⟨buf2, r3⟩ := p3
        have hd3 := readExact_data h3
        simp only []
        cases h4 : readExact r3 2 with
        | none =>
          exact ⟨hd3.trans (hd2.trans hd1), rfl, rfl, fun e he => nomatch he⟩
        | some p4 =>
          obtain ⟨buf3, r4⟩ := p4
          have hd4 := readExact_data h4
          simp only []
          have hb3 : ∀ x ∈ r3.data, x < 256 := by
            rw [hd3, hd2, hd1]; exact hb
          have hcnt : fromBEBytes buf3 < 65536 := by
            have hlen := (readExact_some h4).2.2.2.2
            have := fromBEBytes_lt buf3 (readExact_bytes h4 hb3)
            rw [hlen] at this
            simpa using this
          have hfr := next_block_entry_frame
            { s with
                r := r4,
                curr_offset := s.curr_offset + 2 + fromBEBytes buf1 + 1 + 2 }
          cases hnb : next_block_entry
              { s with
                  r := r4,
                  curr_offset := s.curr_offset + 2 + fromBEBytes buf1 + 1 + 2 } with
          | mk res5 s5 =>
            rw [hnb] at hfr
            cases res5 with
            | error err =>
              refine ⟨?_, hfr.2.1, hfr.2.2, fun e he => nomatch he⟩
              rw [hfr.1]
              exact hd4.trans (hd3.trans (hd2.trans hd1))
            | ok block =>
              refine ⟨?_, hfr.2.1, hfr.2.2, fun e he => ?_⟩
              · rw [hfr.1]
                exact hd4.trans (hd3.trans (hd2.trans hd1))
              · injection he with he
                subst he
                exact ⟨rfl, hcnt⟩

theorem iterNext_inv (s : TSMIndexReader)
    (hb : ∀ x ∈ s.r.data, x < 256)
    (hcurr : ∀ e, s.curr = some e → entryInv e) :
    (∀ e, (iterNext s).1 = some (.ok e) → entryInv e) ∧
      (iterNext s).2.r.data = s.r.data ∧
      (∀ e, (iterNext s).2.curr = some e → entryInv e) := by
  unfold iterNext
  split
  · exact ⟨fun e he => (nomatch he), rfl, hcurr⟩
  · cases hcu : s.curr with
    | none =>
      simp only []
      have hi := next_index_entry_inv s hb
      cases hne : next_index_entry s with
      | mk res s1 =>
        rw [hne] at hi
        cases res with
        | error err =>
          simp only []
          refine ⟨fun e he => ?_, hi.1, ?_⟩
          · simp at he
          · rw [hi.2.1, hcu]
            exact fun e he => nomatch he
        | ok entry =>
          simp only []
          have hinv : entryInv entry := by
            obtain ⟨h1, h2⟩ := hi.2.2.2 entry rfl
            exact ⟨by omega, by omega, by omega, h2⟩
          refine ⟨fun e he => ?_, hi.1, fun e he => ?_⟩
          · simp only [Option.some.injEq, Except.ok.injEq] at he
            exact he ▸ hinv
          · simp only [Option.some.injEq] at he
            exact he ▸ hinv
    | some c =>
      simp only []
      have hc : entryInv c := hcurr c hcu
      split
      · rename_i hlt
        have hfr := next_block_entry_frame s
        cases hnb : next_block_entry s with
        | mk res s1 =>
          rw [hnb] at hfr
          cases res with
          | error err =>
            simp only []
            refine ⟨fun e he => ?_, hfr.1, ?_⟩
            · simp at he
            · rw [hfr.2.1, hcu]
              intro e he
              simp only [Option.some.injEq] at he
              exact he ▸ hc
          | ok block =>
            have hmod : (c.curr_block + 1) % 65536 = c.curr_block + 1 := by
              obtain ⟨-, -, -, h4⟩ := hc
              exact Nat.mod_eq_of_lt (by omega)
            have hinv : entryInv
                { key := c.key, block_type := c.block_type, count := c.count,
                  block := block,
                  curr_block := (c.curr_block + 1) % 65536 } := by
              obtain ⟨i1, i2, i3, i4⟩ := hc
              rw [entryInv]
              simp only [hmod]
              exact ⟨by omega, by omega, by omega, i4⟩
            refine ⟨fun e he => ?_, hfr.1, fun e he => ?_⟩
            · simp only [Option.some.injEq, Except.ok.injEq] at he
              exact he ▸ hinv
            · simp only [Option.some.injEq] at he
              exact he ▸ hinv
      · have hi := next_index_entry_inv s hb
        cases hne : next_index_entry s with
        | mk res s1 =>
          rw [hne] at hi
          cases res with
          | error err =>
            simp only []
            refine ⟨fun e he => ?_, hi.1, ?_⟩
            · simp at he
            · rw [hi.2.1, hcu]
              intro e he
              simp only [Option.some.injEq] at he
              exact he ▸ hc
          | ok entry =>
            simp only []
            have hinv : entryInv entry := by
              obtain ⟨h1, h2⟩ := hi.2.2.2 entry rfl
              exact ⟨by omega, by omega, by omega, h2⟩
            refine ⟨fun e he => ?_, hi.1, fun e he => ?_⟩
            · simp only [Option.some.injEq, Except.ok.injEq] at he
              exact he ▸ hinv
            · simp only [Option.some.injEq] at he
              exact he ▸ hinv

/-- C3 (amended): over every byte source, every `IndexEntry` the
iterator produces satisfies `1 ≤ cursor ≤ max(count, 1)`; the upper
bound degrades to `max(count, 1)` because a header that declares
`count = 0` still produces an entry with `cursor = 1`, and nothing
enforces a minimum key length. -/
theorem C3_cursor_invariant (n : Nat) :
    ∀ (s : TSMIndexReader),
      (∀ x ∈ s.r.data, x < 256) →
      (∀ e, s.curr = some e → entryInv e) →
      ∀ res ∈ runNext s n, ∀ e, res = .ok e →
        1 ≤ e.curr_block ∧ e.curr_block ≤ max e.count 1 := by
  induction n with
  | zero =>
    intro s _ _ res hres
    simp [runNext] at hres
  | succ n ih =>
    intro s hb hcurr res hres e hoke
    rw [runNext_succ] at hres
    cases hit : iterNext s with
    | mk o s' =>
      rw [hit] at hres
      cases o with
      | none => simp at hres
      | some r0 =>
        simp only [List.mem_cons] at hres
        have hinv := iterNext_inv s hb hcurr
        rw [hit] at hinv
        rcases hres with h | h
        · subst h
          have he := hinv.1 e (by rw [hoke])
          exact ⟨he.1, he.2.1⟩
        · exact ih s' (by rw [hinv.2.1]; exact hb) hinv.2.2 res h e hoke

/-- Counterexample to C3 as stated: a source whose header declares
`count = 0` and a 5-byte key yields an entry with `cursor = 1 > count`
and a key shorter than 17 bytes. -/
theorem C3_counterexample :
    (try_new ⟨count0File5, 0⟩ 46).toOption.map (fun s => runNext s 1) =
      some [.ok { key := List.replicate 5 9, block_type := 0, count := 0,
                  block := dummyBlock, curr_block := 1 }] ∧
    ¬ ((1 : Nat) ≤ (0 : Nat)) ∧ ¬ (17 ≤ (List.replicate 5 9 : List Nat).length) := by
  decide

/-- Witness for the amended C3, applied to the concrete `count = 0` run. -/
theorem C3_cursor_invariant_witness :
    1 ≤ ({ key := List.replicate 17 9, block_type := 0, count := 0,
           block := dummyBlock, curr_block := 1 } : IndexEntry).curr_block ∧
      ({ key := List.replicate 17 9, block_type := 0, count := 0,
         block := dummyBlock, curr_block := 1 } : IndexEntry).curr_block ≤
        max ({ key := List.replicate 17 9, block_type := 0, count := 0,
               block := dummyBlock, curr_block := 1 } : IndexEntry).count 1 :=
  C3_cursor_invariant 1 ⟨⟨count0File17, 0⟩, 0, 50, none, none⟩
    (by decide) (fun e he => Option.noConfusion he)
    (.ok { key := List.replicate 17 9, block_type := 0, count := 0,
           block := dummyBlock, curr_block := 1 })
    (by decide)
    { key := List.replicate 17 9, block_type := 0, count := 0,
      block := dummyBlock, curr_block := 1 } rfl

/-! ## The series-key parser (C4, C6) -/

theorem findIdx_comma (meas R : List Nat)
    (h : ∀ b ∈ meas, (b == 44) = false) :
    (meas ++ 44 :: R).findIdx (fun b => b == 44) = meas.length := by
  induction meas with
  | nil => simp [List.findIdx_cons]
  | cons a ms ih =>
    simp only [List.cons_append, List.findIdx_cons, h a (by simp),
      cond_false, List.length_cons]
    rw [ih (fun b hb => h b (by simp [hb]))]

theorem tagStep_keys (bs : List Nat) :
    ∀ (acc : List (List Nat × List Nat)) (key value : List Nat), noSep bs →
      bs.foldl tagStep (acc, key, value, true) = (acc, key ++ bs, value, true) := by
  induction bs with
  | nil => intro acc key value _; simp
  | cons b bs ih =>
    intro acc key value hns
    obtain ⟨hb44, hb61⟩ := hns b (by simp)
    have hstep : tagStep (acc, key, value, true) b = (acc, key ++ [b], value, true) := by
      simp [tagStep, hb44, hb61]
    rw [List.foldl_cons, hstep, ih acc (key ++ [b]) value
      (fun x hx => hns x (by simp [hx]))]
    simp

theorem tagStep_values (bs : List Nat) :
    ∀ (acc : List (List Nat × List Nat)) (key value : List Nat), noSep bs →
      bs.foldl tagStep (acc, key, value, false) = (acc, key, value ++ bs, false) := by
  induction bs with
  | nil => intro acc key value _; simp
  | cons b bs ih =>
    intro acc key value hns
    obtain ⟨hb44, hb61⟩ := hns b (by simp)
    have hstep : tagStep (acc, key, value, false) b = (acc, key, value ++ [b], false) := by
      simp [tagStep, hb44, hb61]
    rw [List.foldl_cons, hstep, ih acc key (value ++ [b])
      (fun x hx => hns x (by simp [hx]))]
    simp

theorem tagFold_spec (pairs : List (List Nat × List Nat)) :
    ∀ (acc : List (List Nat × List Nat)) (blob : List Nat),
      (∀ p ∈ pairs, noSep p.1 ∧ noSep p.2) → noSep blob →
      (tagPairsBytes pairs ++ 255 :: 61 :: blob).foldl tagStep (acc, [], [], true) =
        (acc ++ pairs, [255], blob, false) := by
  induction pairs with
  | nil =>
    intro acc blob _ hblob
    have h255 : tagStep (acc, [], [], true) 255 = (acc, [255], [], true) := by
      simp [tagStep]
    have h61 : tagStep (acc, [255], [], true) 61 = (acc, [255], [], false) := by
      simp [tagStep]
    simp only [tagPairsBytes, List.map_nil, List.flatten_nil, List.nil_append,
      List.foldl_cons, h255, h61]
    rw [tagStep_values blob acc [255] [] hblob]
    simp
  | cons p ps ih =>
    intro acc blob hpairs hblob
    obtain ⟨hn, hv⟩ := hpairs p (by simp)
    have hps : ∀ q ∈ ps, noSep q.1 ∧ noSep q.2 :=
      fun q hq => hpairs q (by simp [hq])
    have hsplit : tagPairsBytes (p :: ps) ++ 255 :: 61 :: blob =
        p.1 ++ (61 :: (p.2 ++ (44 :: (tagPairsBytes ps ++ 255 :: 61 :: blob)))) := by
      simp [tagPairsBytes, List.append_assoc]
    rw [hsplit, List.foldl_append, tagStep_keys p.1 acc [] [] hn]
    rw [List.foldl_cons]
    have hstep61 : tagStep (acc, [] ++ p.1, [], true) 61 =
        (acc, [] ++ p.1, [], false) := by
      simp [tagStep]
    rw [hstep61, List.foldl_append, tagStep_values p.2 acc ([] ++ p.1) [] hv]
    rw [List.foldl_cons]
    have hstep44 : tagStep (acc, [] ++ p.1, [] ++ p.2, false) 44 =
        (acc ++ [([] ++ p.1, [] ++ p.2)], [], [], true) := by
      simp [tagStep]
    rw [hstep44, ih (acc ++ [([] ++ p.1, [] ++ p.2)]) blob hps hblob]
    simp

/-- C4: a well-formed series key (§4.1 layout) parses to the measurement
bytes (offset 19 up to the first `0x2C`), the tag pairs in file order
(the final field-sentinel pair is never emitted), and the field name as
the first `(|blob| - 4) / 2` bytes of the field blob. -/
theorem C4_parse_well_formed_key (pre meas : List Nat)
    (pairs : List (List Nat × List Nat)) (blob : List Nat)
    (hpre : pre.length = 16)
    (hm44 : ∀ b ∈ meas, (b == 44) = false)
    (hutf : validUtf8 meas = true)
    (hpairs : ∀ p ∈ pairs, noSep p.1 ∧ noSep p.2)
    (hblob : noSep blob) (hblen : 4 ≤ blob.length) :
    parse_tsm_key (seriesKeyBytes pre meas pairs blob) =
      .ok { measurement := meas, tagset := pairs,
            field_key := blob.take ((blob.length - 4) / 2) } := by
  have hkey0 : seriesKeyBytes pre meas pairs blob =
      (pre ++ [44, 0, 61]) ++
        (meas ++ 44 :: (tagPairsBytes pairs ++ 255 :: 61 :: blob)) := by
    simp [seriesKeyBytes, List.append_assoc]
  have hlen19 : (pre ++ [44, 0, 61]).length = 19 := by simp [hpre]
  have hnot19 : ¬ (seriesKeyBytes pre meas pairs blob).length < 19 := by
    rw [hkey0, List.length_append, hlen19]
    omega
  have hdrop19 : (seriesKeyBytes pre meas pairs blob).drop 19 =
      meas ++ 44 :: (tagPairsBytes pairs ++ 255 :: 61 :: blob) := by
    rw [hkey0, ← hlen19, List.drop_left]
  have hidx : (meas ++ 44 :: (tagPairsBytes pairs ++ 255 :: 61 :: blob)).findIdx
      (fun b => b == 44) = meas.length := findIdx_comma meas _ hm44
  have htake : (meas ++ 44 :: (tagPairsBytes pairs ++ 255 :: 61 :: blob)).take
      meas.length = meas := List.take_left meas _
  have hdropm : (meas ++ 44 :: (tagPairsBytes pairs ++ 255 :: 61 :: blob)).drop
      meas.length = 44 :: (tagPairsBytes pairs ++ 255 :: 61 :: blob) :=
    List.drop_left meas _
  have hfold := tagFold_spec pairs [] blob hpairs hblob
  unfold parse_tsm_key
  rw [if_neg hnot19]
  simp only [hdrop19, hidx, htake, hdropm, hutf, if_true, List.length_cons,
    List.drop_succ_cons, List.drop_zero, hfold, List.nil_append]
  rw [if_neg (by omega), if_neg (by omega)]

/-- Witness for C4 at the §8 fixture key: measurement
`http_api_request_duration_seconds`, the five tag pairs in order, field
`sum`. -/
theorem C4_parse_well_formed_key_witness :
    parse_tsm_key (seriesKeyBytes fixturePre fixtureMeas fixturePairs fixtureBlob) =
      .ok { measurement := fixtureMeas, tagset := fixturePairs,
            field_key := [115, 117, 109] } :=
  (C4_parse_well_formed_key fixturePre fixtureMeas fixturePairs fixtureBlob
    (by decide) (by decide) (by decide) (by decide) (by decide) (by decide)).trans
    (by decide)

/-- C6 (code bug): the parser panics instead of returning a DecodeError
on a 5-byte input (out-of-range `Vec::drain(19..)`), on a 19-byte input
(out-of-range `drain(1..)` on the empty remainder), and on an otherwise
well-formed key whose field blob is shorter than 4 bytes (`usize`
underflow in `value.len() - 4` / out-of-bounds `split_at`). -/
theorem C6_short_input_panics :
    parse_tsm_key [0, 0, 0, 0, 0] = .panic ∧
      parse_tsm_key (List.replicate 19 0) = .panic ∧
      parse_tsm_key (fixturePre ++ [44, 0, 61] ++ [109] ++ [44] ++
        [255, 61] ++ [115]) = .panic := by
  decide

/-! ## The block decoder (C1, C5, C10) -/

/-- C1 (amended): `decode_block` returns the decoders' columns verbatim,
so whenever the external timestamp decoder yields at most
`MAX_BLOCK_VALUES` timestamps and the value decoders yield columns of
the timestamp column's length (which well-formed blocks guarantee), a
successful decode satisfies `|ts| = |values| ≤ 1000` for both the Float
and the Integer variant; `decode_block` itself enforces no length check. -/
theorem C1_decode_lengths (tsDec : List Nat → Except String (List Int))
    (fDec : List Nat → Except String (List Nat))
    (iDec : List Nat → Except String (List Int))
    (br : TSMBlockReader) (blk : Block) (bd : BlockData)
    (hts : ∀ bs ts, tsDec bs = .ok ts → ts.length ≤ MAX_BLOCK_VALUES)
    (hf : ∀ bs1 bs2 ts vs, tsDec bs1 = .ok ts → fDec bs2 = .ok vs →
      vs.length = ts.length)
    (hi : ∀ bs1 bs2 ts vs, tsDec bs1 = .ok ts → iDec bs2 = .ok vs →
      vs.length = ts.length)
    (hok : decode_block tsDec fDec iDec br blk = .ok bd) :
    bd.tsLength = bd.valuesLength ∧ bd.tsLength ≤ MAX_BLOCK_VALUES := by
  unfold decode_block at hok
  cases hread : readExact (seekTo br.r blk.offset) blk.size with
  | none => rw [hread] at hok; exact (nomatch hok)
  | some p =>
    obtain ⟨data, r'⟩ := p
    rw [hread] at hok
    simp only [] at hok
    split at hok
    · exact (nomatch hok)
    · cases hv : decode_var (data.drop 5) with
      | mk len n =>
        rw [hv] at hok
        simp only [] at hok
        split at hok
        · exact (nomatch hok)
        · cases hts' : tsDec ((data.drop (5 + n)).take len) with
          | error e => rw [hts'] at hok; exact (nomatch hok)
          | ok ts =>
            rw [hts'] at hok
            simp only [] at hok
            split at hok
            · cases hfd : fDec (data.drop (5 + n + len)) with
              | error e => rw [hfd] at hok; exact (nomatch hok)
              | ok vs =>
                rw [hfd] at hok
                simp only [] at hok
                injection hok with hok
                subst hok
                exact ⟨(hf _ _ _ _ hts' hfd).symm, hts _ _ hts'⟩
            · split at hok
              · cases hid : iDec (data.drop (5 + n + len)) with
                | error e => rw [hid] at hok; exact (nomatch hok)
                | ok vs =>
                  rw [hid] at hok
                  simp only [] at hok
                  injection hok with hok
                  subst hok
                  exact ⟨(hi _ _ _ _ hts' hid).symm, hts _ _ hts'⟩
              · split at hok
                · exact (nomatch hok)
                · split at hok
                  · exact (nomatch hok)
                  · split at hok
                    · exact (nomatch hok)
                    · exact (nomatch hok)

/-- Witness for the amended C1 at a minimal float block with empty
columns and decoders that always return empty (hence equal-length)
columns. -/
theorem C1_decode_lengths_witness :
    (BlockData.Float [] []).tsLength = (BlockData.Float [] []).valuesLength ∧
      (BlockData.Float [] []).tsLength ≤ MAX_BLOCK_VALUES :=
  C1_decode_lengths tsDecNil fDecNil tsDecNil ⟨⟨emptyFloatData, 0⟩⟩
    ⟨0, 0, 0, 6⟩ (BlockData.Float [] [])
    (fun bs ts h => by
      injection h with h
      rw [← h]
      norm_num [MAX_BLOCK_VALUES])
    (fun b1 b2 ts vs h1 h2 => by
      injection h1 with h1
      injection h2 with h2
      subst h1
      subst h2
      rfl)
    (fun b1 b2 ts vs h1 h2 => by
      injection h1 with h1
      injection h2 with h2
      subst h1
      subst h2
      rfl)
    (by decide)

/-- Counterexample to C1 as stated: with collaborating decoders that
return one timestamp and two float values, `decode_block` succeeds with
columns of different lengths — it performs no length check. -/
theorem C1_counterexample :
    decode_block tsDecByte fDecByte tsDecNil ⟨⟨lopsidedData, 0⟩⟩ ⟨0, 0, 0, 9⟩ =
      .ok (.Float [9] [7, 7]) ∧
    ¬ (BlockData.Float [9] [7, 7]).tsLength =
        (BlockData.Float [9] [7, 7]).valuesLength := by
  decide

/-- C5 (amended): once the payload read succeeds, the payload has a type
marker (at least 5 bytes), the timestamp sub-block is in bounds and the
timestamp decoder succeeds, any marker other than 0 and 1 — including
2, 3 and 4 — makes `decode_block` fail with the unsupported-block-type
error and no `ColumnPair` output. -/
theorem C5_unsupported_types (tsDec : List Nat → Except String (List Int))
    (fDec : List Nat → Except String (List Nat))
    (iDec : List Nat → Except String (List Int))
    (br : TSMBlockReader) (blk : Block) (data : List Nat) (r' : ByteSource)
    (m len n : Nat) (ts : List Int)
    (hread : readExact (seekTo br.r blk.offset) blk.size = some (data, r'))
    (h5 : ¬ data.length < 5)
    (hm : data.getD 4 0 = m) (hm0 : m ≠ 0) (hm1 : m ≠ 1)
    (hvar : decode_var (data.drop 5) = (len, n))
    (hbound : ¬ data.length < 5 + n + len)
    (hts : tsDec ((data.drop (5 + n)).take len) = .ok ts) :
    isUnsupported (decode_block tsDec fDec iDec br blk) = true := by
  unfold decode_block
  rw [hread]
  simp only []
  rw [if_neg h5, hvar]
  simp only []
  rw [if_neg hbound, hts]
  simp only [hm, F64_BLOCKTYPE_MARKER, I64_BLOCKTYPE_MARKER,
    BOOL_BLOCKTYPE_MARKER, STRING_BLOCKTYPE_MARKER, U64_BLOCKTYPE_MARKER]
  rw [if_neg hm0, if_neg hm1]
  by_cases h2 : m = 2
  · rw [if_pos h2]; rfl
  · rw [if_neg h2]
    by_cases h3 : m = 3
    · rw [if_pos h3]; rfl
    · rw [if_neg h3]
      by_cases h4 : m = 4
      · rw [if_pos h4]; rfl
      · rw [if_neg h4]; rfl

/-- Witness for the amended C5 at a minimal bool-marker block. -/
theorem C5_unsupported_types_witness :
    isUnsupported (decode_block tsDecNil fDecNil tsDecNil
      ⟨⟨emptyBoolData, 0⟩⟩ ⟨0, 0, 0, 6⟩) = true :=
  C5_unsupported_types tsDecNil fDecNil tsDecNil ⟨⟨emptyBoolData, 0⟩⟩
    ⟨0, 0, 0, 6⟩ emptyBoolData ⟨emptyBoolData, 6⟩ 2 0 1 []
    (by decide) (by decide) (by decide) (by decide) (by decide) (by decide)
    (by decide) rfl

/-- Counterexample to C5 as stated: a block with marker 2 whose
timestamp stream decoder fails returns the timestamp decoder's
DecodeError, not UnsupportedBlockType. -/
theorem C5_counterexample :
    boolBlockData.getD 4 0 = 2 ∧
      decode_block tsDecBad fDecNil tsDecNil ⟨⟨boolBlockData, 0⟩⟩ ⟨0, 0, 0, 7⟩ =
        .err (.decodeError "boom") ∧
      isUnsupported (decode_block tsDecBad fDecNil tsDecNil
        ⟨⟨boolBlockData, 0⟩⟩ ⟨0, 0, 0, 7⟩) = false := by
  decide

/-- C10: `decode_block` decodes the timestamp sub-block before
dispatching on the block type: with a non-0/1 marker, a failing
timestamp decoder makes the result that DecodeError, and the
unsupported-block-type error is produced only when timestamp decoding
succeeded. -/
theorem C10_timestamps_before_dispatch
    (tsDec : List Nat → Except String (List Int))
    (fDec : List Nat → Except String (List Nat))
    (iDec : List Nat → Except String (List Int))
    (br : TSMBlockReader) (blk : Block) (data : List Nat) (r' : ByteSource)
    (m len n : Nat) (e : String)
    (hread : readExact (seekTo br.r blk.offset) blk.size = some (data, r'))
    (h5 : ¬ data.length < 5)
    (hm : data.getD 4 0 = m) (hm0 : m ≠ 0) (hm1 : m ≠ 1)
    (hvar : decode_var (data.drop 5) = (len, n))
    (hbound : ¬ data.length < 5 + n + len) :
    (tsDec ((data.drop (5 + n)).take len) = .error e →
      decode_block tsDec fDec iDec br blk = .err (.decodeError e)) ∧
    (isUnsupported (decode_block tsDec fDec iDec br blk) = true →
      ∃ ts, tsDec ((data.drop (5 + n)).take len) = .ok ts) := by
  constructor
  · intro hts
    unfold decode_block
    rw [hread]
    simp only []
    rw [if_neg h5, hvar]
    simp only []
    rw [if_neg hbound, hts]
  · intro hsup
    cases hts : tsDec ((data.drop (5 + n)).take len) with
    | ok ts => exact ⟨ts, rfl⟩
    | error e' =>
      exfalso
      unfold decode_block at hsup
      rw [hread] at hsup
      simp only [] at hsup
      rw [if_neg h5, hvar] at hsup
      simp only [] at hsup
      rw [if_neg hbound, hts] at hsup
      exact absurd hsup (by simp [isUnsupported])

/-- Witness for C10: a string-marker block whose timestamp decoder
fails yields the timestamp decoder's error as a DecodeError. -/
theorem C10_timestamps_before_dispatch_witness :
    decode_block tsDecBad fDecNil tsDecNil ⟨⟨strBlockData, 0⟩⟩ ⟨0, 0, 0, 7⟩ =
      .err (.decodeError "boom") :=
  (C10_timestamps_before_dispatch tsDecBad fDecNil tsDecNil
    ⟨⟨strBlockData, 0⟩⟩ ⟨0, 0, 0, 7⟩ strBlockData ⟨strBlockData, 7⟩ 3 1 1 "boom"
    (by decide) (by decide) (by decide) (by decide) (by decide) (by decide)
    (by decide)).1 rfl
